import Mathlib

/-!
Verification development for the score-smarts-ai streaming AI relay.

Embedded components (shallow embedding, translated from the TypeScript
source):

* the stream decoder/assembler `streamChat` of the Ask-AI page
  (src/unnamed/part_001, lines 54-128);
* the post-completion trailing-structure extractor inside `handleSend`
  (src/unnamed/part_001, lines 130-200);
* the relay request handler of supabase/functions/ask-ai/index.ts.

Strings are modelled as `List Char` (`Str`), chunks delivered by the
stream reader as `List Str`.  `TextDecoder.decode(value, \x7bstream:
true\x7d)` guarantees that the concatenation of the decoded text chunks
equals the decoding of the concatenated bytes, so quantifying over all
text-level chunk boundaries covers all byte-level alignments (a
multi-byte character split across byte chunks is attributed to the text
chunk in which it completes).

`JSON.parse` is modelled by an executable JSON parser `jsParse` over the
standard JSON grammar (numbers are validated and kept as their raw
lexeme, since no embedded code inspects numeric values; `\uXXXX` escapes
are decoded without surrogate pairing, which no claim exercises).  The
decoder core is additionally parameterised over the parse function so
that the concatenation theorems hold for any parser.
-/

abbrev Str := List Char

/-- Coerce a Lean string literal to the `List Char` model. -/
def str (s : String) : Str := s.data

/-! ## Generic string helpers (JS `String.prototype` operations) -/

/-- JS whitespace test, restricted to the ASCII whitespace characters
(space, tab, line feed, carriage return, vertical tab, form feed); the
Unicode space classes also matched by JS `\s` and `trim()` do not occur
in any string the embedded code manipulates. -/
def isWS (c : Char) : Bool :=
  c = ' ' || c = '\t' || c = '\n' || c = '\r' || c = '\x0b' || c = '\x0c'

/-- JS `String.prototype.trim`. -/
def trimStr (s : Str) : Str :=
  ((s.dropWhile isWS).reverse.dropWhile isWS).reverse

/-- JS `startsWith`: is `p` a prefix of `s`? -/
def isPre : Str → Str → Bool
  | [], _ => true
  | _ :: _, [] => false
  | a :: as, b :: bs => if a = b then isPre as bs else false

/-- `if (line.endsWith("\r")) line = line.slice(0, -1)`. -/
def stripCR (l : Str) : Str :=
  if l.getLast? = some '\r' then l.dropLast else l

/-- Split a buffer at its first line feed: models
`textBuffer.indexOf("\n")` plus the two `slice` calls.  Returns `none`
when the buffer holds no complete line. -/
def breakNl : Str → Option (Str × Str)
  | [] => none
  | c :: r =>
    if c = '\n' then some ([], r)
    else (breakNl r).map (fun p => (c :: p.1, p.2))

theorem breakNl_some_shorter {s l r} (h : breakNl s = some (l, r)) :
    r.length < s.length := by
  induction s generalizing l r with
  | nil => simp [breakNl] at h
  | cons c cr ih =>
    by_cases hc : c = '\n'
    · simp [breakNl, hc] at h
      simp [← h.2]
    · simp only [breakNl, hc, if_false] at h
      match h2 : breakNl cr with
      | none => rw [h2] at h; simp at h
      | some (a, b) =>
        rw [h2] at h
        simp at h
        have := ih h2
        simp [← h.2]
        omega

/-- Single-pass worker for `completeLines`: `cur` is the (line-feed
free) portion of the current line already scanned. -/
def linesAux : Str → Str → List Str
  | _, [] => []
  | cur, c :: r =>
    if c = '\n' then cur :: linesAux [] r else linesAux (cur ++ [c]) r

/-- The complete (line-feed-terminated) lines of a text, in order; a
trailing partial line is not included.  `completeLines_eq` states the
line-splitting recurrence. -/
def completeLines (s : Str) : List Str := linesAux [] s

/-- Single-pass worker for `tailRest`. -/
def tailAux : Str → Str → Str
  | cur, [] => cur
  | cur, c :: r =>
    if c = '\n' then tailAux [] r else tailAux (cur ++ [c]) r

/-- The text after the last line feed (the unterminated tail of the
buffer); the whole buffer when it holds no line feed. -/
def tailRest (s : Str) : Str := tailAux [] s

/-- Rebuild a buffer from a list of lines and an unterminated tail. -/
def joinNl (ls : List Str) (t : Str) : Str :=
  ls.foldr (fun l r => l ++ '\n' :: r) t

/-- Concatenation of a chunk sequence. -/
def joinAll : List Str → Str
  | [] => []
  | c :: cs => c ++ joinAll cs

/-! ## JSON values and `JSON.parse` -/

/-- JSON values.  Numbers keep their validated lexeme: no embedded code
reads a numeric field, only validity matters. -/
inductive Json where
  | null
  | bool (b : Bool)
  | num (raw : Str)
  | str (s : Str)
  | arr (xs : List Json)
  | obj (fields : List (Str × Json))

/-- JSON inter-token whitespace (RFC 8259: space, tab, LF, CR only). -/
def jsonWS (c : Char) : Bool :=
  c = ' ' || c = '\t' || c = '\n' || c = '\r'

def skipJWs (s : Str) : Str := s.dropWhile jsonWS

def hexVal (c : Char) : Option Nat :=
  if '0' ≤ c ∧ c ≤ '9' then some (c.toNat - 48)
  else if 'a' ≤ c ∧ c ≤ 'f' then some (c.toNat - 87)
  else if 'A' ≤ c ∧ c ≤ 'F' then some (c.toNat - 55)
  else none

/-- Body of a JSON string after the opening quote: returns the decoded
value and the text after the closing quote.  `\uXXXX` is decoded as a
single code point (no surrogate pairing; no claim exercises it). -/
def parseStrBody : Str → Option (Str × Str)
  | [] => none
  | '"' :: r => some ([], r)
  | '\\' :: esc =>
    match esc with
    | [] => none
    | 'u' :: a :: b :: c :: d :: r => do
      let ha ← hexVal a
      let hb ← hexVal b
      let hc ← hexVal c
      let hd ← hexVal d
      let (v, r2) ← parseStrBody r
      some (Char.ofNat (((ha * 16 + hb) * 16 + hc) * 16 + hd) :: v, r2)
    | e :: r => do
      let c ← match e with
        | '"' => some '"'
        | '\\' => some '\\'
        | '/' => some '/'
        | 'b' => some '\x08'
        | 'f' => some '\x0c'
        | 'n' => some '\n'
        | 'r' => some '\r'
        | 't' => some '\t'
        | _ => none
      let (v, r2) ← parseStrBody r
      some (c :: v, r2)
  | c :: r =>
    if c.toNat < 32 then none
    else do
      let (v, r2) ← parseStrBody r
      some (c :: v, r2)

/-- JSON number lexeme `-?(0|[1-9][0-9]*)(\.[0-9]+)?([eE][+-]?[0-9]+)?`;
returns the lexeme and the rest. -/
def parseNum (s : Str) : Option (Str × Str) := do
  let (neg, s1) := match s with
    | '-' :: r => (['-'], r)
    | _ => (([] : Str), s)
  let (ip, s2) ← match s1 with
    | '0' :: r => some (['0'], r)
    | c :: r =>
      if c.isDigit then
        let p := r.span Char.isDigit
        some (c :: p.1, p.2)
      else none
    | [] => none
  let (fp, s3) ← match s2 with
    | '.' :: r =>
      let p := r.span Char.isDigit
      if p.1 = [] then none else some ('.' :: p.1, p.2)
    | _ => some (([] : Str), s2)
  let (ep, s4) ← match s3 with
    | e :: r =>
      if e = 'e' ∨ e = 'E' then
        let (sg, r1) := match r with
          | '+' :: r2 => (['+'], r2)
          | '-' :: r2 => (['-'], r2)
          | _ => (([] : Str), r)
        let p := r1.span Char.isDigit
        if p.1 = [] then none else some (e :: sg ++ p.1, p.2)
      else some (([] : Str), s3)
    | [] => some (([] : Str), s3)
  some (neg ++ ip ++ fp ++ ep, s4)

mutual

/-- Recursive-descent JSON value parser; `fuel` bounds the recursion
depth and is always supplied large enough to be inexhaustible for the
given input. -/
def parseVal : Nat → Str → Option (Json × Str)
  | 0, _ => none
  | fuel + 1, s =>
    match skipJWs s with
    | 'n' :: 'u' :: 'l' :: 'l' :: r => some (.null, r)
    | 't' :: 'r' :: 'u' :: 'e' :: r => some (.bool true, r)
    | 'f' :: 'a' :: 'l' :: 's' :: 'e' :: r => some (.bool false, r)
    | '"' :: r =>
      match parseStrBody r with
      | some (v, r2) => some (.str v, r2)
      | none => none
    | '[' :: r =>
      match skipJWs r with
      | ']' :: r2 => some (.arr [], r2)
      | r1 =>
        match parseItems fuel r1 with
        | some (xs, r2) => some (.arr xs, r2)
        | none => none
    | '\x7b' :: r =>
      match skipJWs r with
      | '\x7d' :: r2 => some (.obj [], r2)
      | r1 =>
        match parseMembers fuel r1 with
        | some (ms, r2) => some (.obj ms, r2)
        | none => none
    | s1 =>
      match parseNum s1 with
      | some (lex, r) => some (.num lex, r)
      | none => none

/-- Non-empty bracket-terminated item list of a JSON array. -/
def parseItems : Nat → Str → Option (List Json × Str)
  | 0, _ => none
  | fuel + 1, s =>
    match parseVal fuel s with
    | none => none
    | some (v, r) =>
      match skipJWs r with
      | ',' :: r2 =>
        match parseItems fuel r2 with
        | some (vs, r3) => some (v :: vs, r3)
        | none => none
      | ']' :: r2 => some ([v], r2)
      | _ => none

/-- Non-empty brace-terminated member list of a JSON object. -/
def parseMembers : Nat → Str → Option (List (Str × Json) × Str)
  | 0, _ => none
  | fuel + 1, s =>
    match skipJWs s with
    | '"' :: r =>
      match parseStrBody r with
      | none => none
      | some (k, r2) =>
        match skipJWs r2 with
        | ':' :: r3 =>
          match parseVal fuel r3 with
          | none => none
          | some (v, r4) =>
            match skipJWs r4 with
            | ',' :: r5 =>
              match parseMembers fuel r5 with
              | some (ms, r6) => some ((k, v) :: ms, r6)
              | none => none
            | '\x7d' :: r5 => some ([(k, v)], r5)
            | _ => none
        | _ => none
    | _ => none

end

/-- Model of `JSON.parse`: `none` models a thrown `SyntaxError`.  The
fuel `s.length + 2` exceeds the maximal possible nesting depth, since
every recursive descent first consumes at least one character. -/
def jsParse (s : Str) : Option Json :=
  match parseVal (s.length + 2) s with
  | some (j, r) => if skipJWs r = [] then some j else none
  | none => none

/-- Property lookup on a parsed JSON object.  JS keeps the *last* of
duplicate keys, so the lookup prefers later fields. -/
def lookupLast : List (Str × Json) → Str → Option Json
  | [], _ => none
  | (k, v) :: fs, key =>
    match lookupLast fs key with
    | some r => some r
    | none => if k = key then some v else none

/-- JS property access `x.k` on a JSON value: `none` models
`undefined` (missing key, or a primitive/array receiver). -/
def objGet : Json → Str → Option Json
  | .obj fs, key => lookupLast fs key
  | _, _ => none

/-- JS `x[0]` on a JSON value: `none` models `undefined`. -/
def jsIndex0 : Json → Option Json
  | .arr (x :: _) => some x
  | _ => none


/-! ## Stream decoder/assembler (`streamChat`, part_001 lines 77-127) -/

/-- `"data: "`, the SSE data-line prefix tested by `line.startsWith`. -/
def dataPre : Str := str ("data: ")

/-- `":"`, the SSE comment marker. -/
def colonS : Str := str (":")

/-- `"[DONE]"`, the sentinel termination token. -/
def doneTok : Str := str ("[DONE]")

/-- The extraction chain `parsed.choices?.[0]?.delta?.content` applied
to a parsed payload.  `.error` models the `TypeError` thrown when
`parsed` itself is `null` (the only unguarded access in the chain);
every later step is guarded by `?.` and yields `undefined` (`none`)
instead.  The source annotates the result `as string | undefined`, so a
string-valued `content` is returned and any non-string value (which the
upstream wire format excludes) is treated as absent. -/
def contentOf (parsed : Json) : Except Unit (Option Str) :=
  match parsed with
  | .null => .error ()
  | _ =>
    match objGet parsed (str ("choices")) with
    | none => .ok none
    | some chs =>
      match jsIndex0 chs with
      | none => .ok none
      | some c0 =>
        match objGet c0 (str ("delta")) with
        | none => .ok none
        | some d =>
          match objGet d (str ("content")) with
          | some (.str s) => .ok (some s)
          | _ => .ok none

/-- `if (content) fullResponse += content`: a present, non-empty
content string is appended; an absent or empty one contributes
nothing (appending the empty string is the identity, so the JS
truthiness test folds away). -/
def cVal : Option Str → Str
  | some c => c
  | none => []

/-- The body of the `try` block for one data line, as a function of the
trimmed remainder: `none` models a thrown exception (JSON parse error,
or the `null`-payload `TypeError`), which the `catch` turns into a
push-back; `some d` is the text the line contributes to
`fullResponse`. -/
def lineDelta (jp : Str → Option Json) (jsonStr : Str) : Option Str :=
  match jp jsonStr with
  | none => none
  | some parsed =>
    match contentOf parsed with
    | .error _ => none
    | .ok c => some (cVal c)

/-- Single-pass worker for `processLines`: `cur` is the portion of the
current line scanned so far, `rem` the rest of the buffer. -/
def plAux (jp : Str → Option Json) : Str → Str → Str → Str × Str
  | cur, [], acc => (cur, acc)
  | cur, c :: rem, acc =>
    if c = '\n' then
      let line := stripCR cur
      if isPre colonS line ∨ trimStr line = [] then plAux jp [] rem acc
      else if ¬ isPre dataPre line then plAux jp [] rem acc
      else
        let js := trimStr (line.drop 6)
        if js = doneTok then (rem, acc)
        else
          match lineDelta jp js with
          | some d => plAux jp [] rem (acc ++ d)
          | none => (line ++ '\n' :: rem, acc)
    else plAux jp (cur ++ [c]) rem acc

/-- The inner `while ((newlineIndex = textBuffer.indexOf("\n")) !== -1)`
loop of `streamChat`: consumes complete lines from the buffer,
accumulating text into `acc` (the `fullResponse` variable), and returns
the remaining buffer and accumulator when it stops (no complete line
left, `[DONE]` seen, or a line pushed back by the `catch`).  Implemented
as a single left-to-right scan; the theorem `processLines_recur` states
the `indexOf`/`slice` recurrence of the source verbatim. -/
def processLines (jp : Str → Option Json) (buf acc : Str) : Str × Str :=
  plAux jp [] buf acc

/-- The outer `while (true)` read loop: each delivered chunk is
appended to the buffer and the line loop is run; at end of stream the
accumulated `fullResponse` is returned (any unconsumed buffer is
discarded). -/
def streamLoop (jp : Str → Option Json) : List Str → Str → Str → Str
  | [], _, acc => acc
  | c :: cs, buf, acc =>
    let p := processLines jp (buf ++ c) acc
    streamLoop jp cs p.1 p.2

/-- `streamChat`'s decode loop on a sequence of text chunks, with the
real `JSON.parse` model: returns the assembled `fullResponse`. -/
def streamChat (chunks : List Str) : Str :=
  streamLoop jsParse chunks [] []

/-- Line-list view of one pass of the inner loop: the same branch
structure as `processLines`, acting on the buffer decomposed into its
complete lines `ls` and unterminated tail `t`.  Used only for proofs;
`processLines_eq_passL` ties it to the source-faithful function. -/
def passL (jp : Str → Option Json) : List Str → Str → Str → Str × Str
  | [], t, acc => (t, acc)
  | l0 :: ls, t, acc =>
    if isPre colonS (stripCR l0) ∨ trimStr (stripCR l0) = [] then
      passL jp ls t acc
    else if ¬ isPre dataPre (stripCR l0) then passL jp ls t acc
    else if trimStr ((stripCR l0).drop 6) = doneTok then (joinNl ls t, acc)
    else
      match lineDelta jp (trimStr ((stripCR l0).drop 6)) with
      | some d => passL jp ls t (acc ++ d)
      | none => (stripCR l0 ++ '\n' :: joinNl ls t, acc)

/-- The specification's reference assembly (spec §3 invariant, §8
"concatenation invariant"), written from the spec's words: the
concatenation, in arrival order, of the `choices[0].delta.content`
strings of the well-formed `data:` lines observed before the `[DONE]`
terminator (or end of stream); malformed lines contribute nothing. -/
def refConcat (jp : Str → Option Json) : List Str → Str
  | [] => []
  | l0 :: ls =>
    if isPre colonS (stripCR l0) ∨ trimStr (stripCR l0) = [] then
      refConcat jp ls
    else if ¬ isPre dataPre (stripCR l0) then refConcat jp ls
    else if trimStr ((stripCR l0).drop 6) = doneTok then []
    else
      match lineDelta jp (trimStr ((stripCR l0).drop 6)) with
      | some d => d ++ refConcat jp ls
      | none => refConcat jp ls

/-- Is the (CR-stripped) line a `data:` line? -/
def lineData (l : Str) : Bool := isPre dataPre (stripCR l)

/-- The trimmed remainder of a data line. -/
def jsonOf (l : Str) : Str := trimStr ((stripCR l).drop 6)

/-- Is the line the `data: [DONE]` terminator? -/
def lineDone (l : Str) : Bool := lineData l && decide (jsonOf l = doneTok)

/-- Every data line of `L` (other than the terminator) parses and
extracts without throwing. -/
def allParse (jp : Str → Option Json) (L : List Str) : Bool :=
  L.all fun l =>
    !lineData l || decide (jsonOf l = doneTok) || (lineDelta jp (jsonOf l)).isSome

/-- No data line follows the first `data: [DONE]` line of `L`. -/
def noDataAfterDone : List Str → Bool
  | [] => true
  | l :: ls =>
    if lineDone l then ls.all fun x => !lineData x
    else noDataAfterDone ls

/-- No `data: [DONE]` line occurs in `L`. -/
def noDone (L : List Str) : Bool := L.all fun l => !lineDone l

/-! ## Buffer/line decomposition lemmas -/

theorem breakNl_of_no_nl {s : Str} (h : '\n' ∉ s) : breakNl s = none := by
  induction s with
  | nil => rfl
  | cons c r ih =>
    simp at h
    have hc : ¬ c = '\n' := fun hh => h.1 hh.symm
    simp [breakNl, hc, ih h.2]

theorem breakNl_eq_some {s l r : Str} (h : breakNl s = some (l, r)) :
    s = l ++ '\n' :: r ∧ '\n' ∉ l := by
  induction s generalizing l r with
  | nil => simp [breakNl] at h
  | cons c cr ih =>
    by_cases hc : c = '\n'
    · subst hc
      simp [breakNl] at h
      refine ⟨?_, ?_⟩
      · simp [h.1, ← h.2]
      · rw [h.1]; simp
    · simp only [breakNl, hc, if_false] at h
      match h2 : breakNl cr with
      | none => rw [h2] at h; simp at h
      | some (a, b) =>
        rw [h2] at h
        simp at h
        obtain ⟨ha, hb⟩ := ih h2
        refine ⟨?_, ?_⟩
        · simp [← h.1, ← h.2, ha]
        · simp [← h.1]
          exact ⟨fun hh => hc hh.symm, hb⟩

theorem breakNl_prepend {a : Str} (b : Str) (h : '\n' ∉ a) :
    breakNl (a ++ '\n' :: b) = some (a, b) := by
  induction a with
  | nil => simp [breakNl]
  | cons c r ih =>
    simp at h
    have hc : ¬ c = '\n' := fun hh => h.1 hh.symm
    simp [breakNl, hc, ih h.2]

theorem linesAux_eq (cur rem : Str) : linesAux cur rem =
    match breakNl rem with
    | none => []
    | some (l, r) => (cur ++ l) :: linesAux [] r := by
  induction rem generalizing cur with
  | nil => simp [linesAux, breakNl]
  | cons c r ih =>
    by_cases hc : c = '\n'
    · subst hc
      simp [linesAux, breakNl]
    · simp only [linesAux, hc, if_false, breakNl]
      rw [ih]
      match h2 : breakNl r with
      | none => simp
      | some (a, b) => simp

theorem completeLines_eq (s : Str) : completeLines s =
    match breakNl s with
    | none => []
    | some (l, r) => l :: completeLines r := by
  show linesAux [] s = _
  rw [linesAux_eq]
  cases h2 : breakNl s with
  | none => rfl
  | some p => simp [completeLines]

theorem tailAux_eq (cur rem : Str) : tailAux cur rem =
    match breakNl rem with
    | none => cur ++ rem
    | some (_, r) => tailAux [] r := by
  induction rem generalizing cur with
  | nil => simp [tailAux, breakNl]
  | cons c r ih =>
    by_cases hc : c = '\n'
    · subst hc
      simp [tailAux, breakNl]
    · simp only [tailAux, hc, if_false, breakNl]
      rw [ih]
      match h2 : breakNl r with
      | none => simp
      | some (a, b) => simp

theorem tailRest_eq (s : Str) : tailRest s =
    match breakNl s with
    | none => s
    | some (_, r) => tailRest r := by
  show tailAux [] s = _
  rw [tailAux_eq]
  cases h2 : breakNl s with
  | none => rfl
  | some p => simp [tailRest]

theorem joinNl_nil (t : Str) : joinNl [] t = t := rfl

theorem joinNl_cons (l : Str) (ls : List Str) (t : Str) :
    joinNl (l :: ls) t = l ++ '\n' :: joinNl ls t := rfl

theorem joinNl_append (ls ms : List Str) (t : Str) :
    joinNl (ls ++ ms) t = joinNl ls (joinNl ms t) := by
  simp [joinNl, List.foldr_append]

theorem joinNl_append_str (ls : List Str) (t u : Str) :
    joinNl ls t ++ u = joinNl ls (t ++ u) := by
  induction ls with
  | nil => rfl
  | cons l ls ih => simp [joinNl_cons, ih]

theorem completeLines_joinNl {ls : List Str} {t : Str}
    (hls : ∀ l ∈ ls, '\n' ∉ l) (ht : '\n' ∉ t) :
    completeLines (joinNl ls t) = ls := by
  induction ls with
  | nil => rw [joinNl_nil, completeLines_eq, breakNl_of_no_nl ht]
  | cons l ls ih =>
    rw [joinNl_cons, completeLines_eq,
      breakNl_prepend (joinNl ls t) (hls l (by simp))]
    simp only
    rw [ih fun x hx => hls x (by simp [hx])]

theorem tailRest_joinNl {ls : List Str} {t : Str}
    (hls : ∀ l ∈ ls, '\n' ∉ l) (ht : '\n' ∉ t) :
    tailRest (joinNl ls t) = t := by
  induction ls with
  | nil => rw [joinNl_nil, tailRest_eq, breakNl_of_no_nl ht]
  | cons l ls ih =>
    rw [joinNl_cons, tailRest_eq,
      breakNl_prepend (joinNl ls t) (hls l (by simp))]
    exact ih fun x hx => hls x (by simp [hx])

theorem joinNl_split_aux : ∀ (n : Nat) (s : Str), s.length = n →
    joinNl (completeLines s) (tailRest s) = s ∧
    (∀ l ∈ completeLines s, '\n' ∉ l) ∧ '\n' ∉ tailRest s := by
  intro n
  induction n using Nat.strong_induction_on with
  | _ n ih =>
    intro s hn
    match h2 : breakNl s with
    | none =>
      rw [completeLines_eq, tailRest_eq, h2]
      refine ⟨rfl, by simp, ?_⟩
      intro hmem
      have : ∃ a b, breakNl s = some (a, b) := by
        clear h2 ih hn
        induction s with
        | nil => simp at hmem
        | cons c r ihs =>
          rcases List.mem_cons.1 hmem with hc | hc
          · exact ⟨[], r, by simp [breakNl, hc.symm]⟩
          · by_cases hcn : c = '\n'
            · exact ⟨[], r, by simp [breakNl, hcn]⟩
            · obtain ⟨a, b, hab⟩ := ihs hc
              exact ⟨c :: a, b, by simp [breakNl, hcn, hab]⟩
      obtain ⟨a, b, hab⟩ := this
      rw [hab] at h2
      exact Option.noConfusion h2
    | some (l, r) =>
      rw [completeLines_eq, tailRest_eq, h2]
      obtain ⟨hs, hl⟩ := breakNl_eq_some h2
      have hr : r.length < n := by
        rw [← hn]
        exact breakNl_some_shorter h2
      obtain ⟨h1, h2a, h3⟩ := ih r.length hr r rfl
      refine ⟨?_, ?_, h3⟩
      · rw [joinNl_cons, h1, ← hs]
      · intro x hx
        rcases List.mem_cons.1 hx with hc | hc
        · rw [hc]; exact hl
        · exact h2a x hc

/-- Canonical decomposition of a buffer into its complete lines and
unterminated tail. -/
theorem joinNl_split (s : Str) :
    joinNl (completeLines s) (tailRest s) = s ∧
    (∀ l ∈ completeLines s, '\n' ∉ l) ∧ '\n' ∉ tailRest s :=
  joinNl_split_aux s.length s rfl

/-! ## Inner-pass lemmas -/

theorem plAux_eq (jp : Str → Option Json) (cur rem acc : Str) :
    plAux jp cur rem acc =
    match breakNl rem with
    | none => (cur ++ rem, acc)
    | some (l0, rest) =>
      let line := stripCR (cur ++ l0)
      if isPre colonS line ∨ trimStr line = [] then plAux jp [] rest acc
      else if ¬ isPre dataPre line then plAux jp [] rest acc
      else
        let js := trimStr (line.drop 6)
        if js = doneTok then (rest, acc)
        else
          match lineDelta jp js with
          | some d => plAux jp [] rest (acc ++ d)
          | none => (line ++ '\n' :: rest, acc) := by
  induction rem generalizing cur with
  | nil => simp [plAux, breakNl]
  | cons c r ih =>
    by_cases hc : c = '\n'
    · subst hc
      simp [plAux, breakNl]
    · simp only [plAux, hc, if_false, breakNl]
      rw [ih]
      match h2 : breakNl r with
      | none => simp [List.append_assoc]
      | some (a, b) => simp [List.append_assoc]

/-- The source-shaped recurrence of the inner line loop: split the
buffer at its first line feed, strip a trailing carriage return, skip
comment/empty/non-data lines, stop at the `[DONE]` sentinel, append the
extracted delta, or push a failed line back. -/
theorem processLines_recur (jp : Str → Option Json) (buf acc : Str) :
    processLines jp buf acc =
    match breakNl buf with
    | none => (buf, acc)
    | some (l0, rest) =>
      let line := stripCR l0
      if isPre colonS line ∨ trimStr line = [] then processLines jp rest acc
      else if ¬ isPre dataPre line then processLines jp rest acc
      else
        let js := trimStr (line.drop 6)
        if js = doneTok then (rest, acc)
        else
          match lineDelta jp js with
          | some d => processLines jp rest (acc ++ d)
          | none => (line ++ '\n' :: rest, acc) := by
  show plAux jp [] buf acc = _
  rw [plAux_eq]
  cases h2 : breakNl buf with
  | none => rfl
  | some p => simp [processLines]

/-- On a buffer decomposed into line-feed-free complete lines `ls` and
tail `t`, the inner loop acts as the line-list pass `passL`. -/
theorem processLines_eq_passL (jp : Str → Option Json) (ls : List Str)
    (t acc : Str) (hls : ∀ l ∈ ls, '\n' ∉ l) (ht : '\n' ∉ t) :
    processLines jp (joinNl ls t) acc = passL jp ls t acc := by
  induction ls generalizing acc with
  | nil =>
    rw [joinNl_nil, processLines_recur, breakNl_of_no_nl ht]
    rfl
  | cons l ls ih =>
    rw [joinNl_cons, processLines_recur,
      breakNl_prepend (joinNl ls t) (hls l (by simp))]
    have ihs : ∀ x ∈ ls, '\n' ∉ x := fun x hx => hls x (by simp [hx])
    simp only [passL]
    by_cases h1 : isPre colonS (stripCR l) ∨ trimStr (stripCR l) = []
    · simp only [h1, if_true]
      exact ih acc ihs
    · simp only [h1, if_false]
      by_cases h2 : isPre dataPre (stripCR l) = true
      · simp only [h2, not_true, if_false]
        by_cases h3 : trimStr ((stripCR l).drop 6) = doneTok
        · simp only [h3, if_true]
        · simp only [h3, if_false]
          match hd : lineDelta jp (trimStr ((stripCR l).drop 6)) with
          | some d => exact ih (acc ++ d) ihs
          | none => rfl
      · simp only [h2, if_true, not_false_iff]
        exact ih acc ihs

/-! ## Line classification -/

theorem isPre_data_shape {line : Str} (h : isPre dataPre line = true) :
    ∃ r, line = 'd' :: r := by
  match line with
  | [] => exact absurd h (by decide)
  | b :: bs =>
    refine ⟨bs, ?_⟩
    by_cases hb : b = 'd'
    · rw [hb]
    · exfalso
      have : isPre dataPre (b :: bs) = false := by
        show (if 'd' = b then isPre (str ("ata: ")) bs else false) = false
        have : ¬ 'd' = b := fun hh => hb hh.symm
        simp [this]
      rw [this] at h
      exact Bool.noConfusion h

/-- A `data: ` line is never skipped by the comment/empty tests. -/
theorem not_skip_of_data {line : Str} (h : isPre dataPre line = true) :
    ¬ (isPre colonS line = true ∨ trimStr line = []) := by
  obtain ⟨r, rfl⟩ := isPre_data_shape h
  rintro (hc | ht)
  · have : isPre colonS ('d' :: r) = false := rfl
    rw [this] at hc
    exact Bool.noConfusion hc
  · have hdrop : ('d' :: r).dropWhile isWS = 'd' :: r := by
      rw [List.dropWhile_cons]
      simp [isWS]
    rw [trimStr, hdrop] at ht
    have : ∀ x ∈ ('d' :: r).reverse, isWS x := by
      rw [← List.dropWhile_eq_nil_iff]
      have := congrArg List.reverse ht
      simpa using this
    have hd := this 'd' (by simp)
    exact absurd hd (by decide)

theorem lineData_of_lineDone {l : Str} (h : lineDone l = true) :
    lineData l = true := by
  simp [lineDone] at h
  exact h.1

theorem jsonOf_of_lineDone {l : Str} (h : lineDone l = true) :
    jsonOf l = doneTok := by
  simp [lineDone] at h
  exact h.2

/-! ## Pass behaviour -/

theorem pass_nonData (jp : Str → Option Json) :
    ∀ (ls : List Str) (t acc : Str),
    ls.all (fun l => !lineData l) = true → passL jp ls t acc = (t, acc) := by
  intro ls
  induction ls with
  | nil => intro t acc _; rfl
  | cons l ls ih =>
    intro t acc hall
    simp [List.all_cons] at hall
    have hnd : isPre dataPre (stripCR l) = false := by
      have := hall.1
      simpa [lineData] using this
    simp only [passL]
    by_cases h1 : isPre colonS (stripCR l) ∨ trimStr (stripCR l) = []
    · simp only [h1, if_true]
      exact ih t acc (by simp [List.all_iff_forall]; exact fun x hx => (by
        have := hall.2 x hx
        simpa [lineData] using this))
    · simp only [h1, if_false, hnd]
      simp only [Bool.false_eq_true, not_false_iff, if_true]
      exact ih t acc (by simp [List.all_iff_forall]; exact fun x hx => (by
        have := hall.2 x hx
        simpa [lineData] using this))

theorem pass_noDone (jp : Str → Option Json) :
    ∀ (ls : List Str) (t acc : Str),
    allParse jp ls = true → noDone ls = true →
    passL jp ls t acc = (t, acc ++ refConcat jp ls) := by
  intro ls
  induction ls with
  | nil => intro t acc _ _; simp [passL, refConcat]
  | cons l ls ih =>
    intro t acc hap hnd
    simp only [allParse, List.all_cons, Bool.and_eq_true] at hap
    simp only [noDone, List.all_cons, Bool.and_eq_true] at hnd
    have hap2 : allParse jp ls = true := hap.2
    have hnd2 : noDone ls = true := hnd.2
    simp only [passL, refConcat]
    by_cases h1 : isPre colonS (stripCR l) ∨ trimStr (stripCR l) = []
    · rw [if_pos h1, if_pos h1]
      exact ih t acc hap2 hnd2
    · rw [if_neg h1, if_neg h1]
      by_cases h2 : isPre dataPre (stripCR l) = true
      · have hdata : lineData l = true := h2
        have hnn : ¬ ¬ isPre dataPre (stripCR l) = true := by simpa using h2
        rw [if_neg hnn, if_neg hnn]
        by_cases h3 : trimStr ((stripCR l).drop 6) = doneTok
        · exfalso
          have hdone : lineDone l = true := by
            simp [lineDone, hdata, jsonOf]
            exact h3
          have := hnd.1
          rw [hdone] at this
          exact Bool.noConfusion this
        · rw [if_neg h3, if_neg h3]
          have hsome : (lineDelta jp (jsonOf l)).isSome = true := by
            have hh := hap.1
            simp only [Bool.or_eq_true, Bool.not_eq_true',
              decide_eq_true_eq] at hh
            rcases hh with (h | h) | h
            · rw [hdata] at h; exact Bool.noConfusion h
            · exact absurd h h3
            · exact h
          obtain ⟨d, hd⟩ := Option.isSome_iff_exists.1 hsome
          have hd' : lineDelta jp (trimStr ((stripCR l).drop 6)) = some d := hd
          rw [hd']
          show passL jp ls t (acc ++ d) = (t, acc ++ (d ++ refConcat jp ls))
          rw [ih t (acc ++ d) hap2 hnd2]
          simp [List.append_assoc]
      · have hpp : ¬ isPre dataPre (stripCR l) = true := by simpa using h2
        rw [if_pos hpp, if_pos hpp]
        exact ih t acc hap2 hnd2

theorem pass_done (jp : Str → Option Json) :
    ∀ (M₁ : List Str) (d : Str) (M₂ : List Str) (t acc : Str),
    allParse jp M₁ = true → noDone M₁ = true → lineDone d = true →
    passL jp (M₁ ++ d :: M₂) t acc = (joinNl M₂ t, acc ++ refConcat jp M₁) := by
  intro M₁
  induction M₁ with
  | nil =>
    intro d M₂ t acc _ _ hd
    have hdata : isPre dataPre (stripCR d) = true := lineData_of_lineDone hd
    have hjs : trimStr ((stripCR d).drop 6) = doneTok := jsonOf_of_lineDone hd
    simp only [List.nil_append, passL, refConcat]
    rw [if_neg (not_skip_of_data hdata), if_neg (by simpa using hdata),
      if_pos hjs]
    simp
  | cons l M₁ ih =>
    intro d M₂ t acc hap hnd hd
    simp only [allParse, List.all_cons, Bool.and_eq_true] at hap
    simp only [noDone, List.all_cons, Bool.and_eq_true] at hnd
    have hap2 : allParse jp M₁ = true := hap.2
    have hnd2 : noDone M₁ = true := hnd.2
    simp only [List.cons_append, passL, refConcat]
    by_cases h1 : isPre colonS (stripCR l) ∨ trimStr (stripCR l) = []
    · rw [if_pos h1, if_pos h1]
      exact ih d M₂ t acc hap2 hnd2 hd
    · rw [if_neg h1, if_neg h1]
      by_cases h2 : isPre dataPre (stripCR l) = true
      · have hdata : lineData l = true := h2
        have hnn : ¬ ¬ isPre dataPre (stripCR l) = true := by simpa using h2
        rw [if_neg hnn, if_neg hnn]
        by_cases h3 : trimStr ((stripCR l).drop 6) = doneTok
        · exfalso
          have hdone : lineDone l = true := by
            simp [lineDone, hdata, jsonOf]
            exact h3
          have := hnd.1
          rw [hdone] at this
          exact Bool.noConfusion this
        · rw [if_neg h3, if_neg h3]
          have hsome : (lineDelta jp (jsonOf l)).isSome = true := by
            have hh := hap.1
            simp only [Bool.or_eq_true, Bool.not_eq_true',
              decide_eq_true_eq] at hh
            rcases hh with (h | h) | h
            · rw [hdata] at h; exact Bool.noConfusion h
            · exact absurd h h3
            · exact h
          obtain ⟨d', hd'⟩ := Option.isSome_iff_exists.1 hsome
          have hd'' : lineDelta jp (trimStr ((stripCR l).drop 6)) = some d' :=
            hd'
          rw [hd'']
          show passL jp (M₁ ++ d :: M₂) t (acc ++ d') =
            (joinNl M₂ t, acc ++ (d' ++ refConcat jp M₁))
          rw [ih d M₂ t (acc ++ d') hap2 hnd2 hd]
          simp [List.append_assoc]
      · have hpp : ¬ isPre dataPre (stripCR l) = true := by simpa using h2
        rw [if_pos hpp, if_pos hpp]
        exact ih d M₂ t acc hap2 hnd2 hd

theorem refConcat_append (jp : Str → Option Json) :
    ∀ (M N : List Str), noDone M = true →
    refConcat jp (M ++ N) = refConcat jp M ++ refConcat jp N := by
  intro M
  induction M with
  | nil => intro N _; simp [refConcat]
  | cons l M ih =>
    intro N hnd
    simp only [noDone, List.all_cons, Bool.and_eq_true] at hnd
    have hnd2 : noDone M = true := hnd.2
    simp only [List.cons_append, refConcat]
    by_cases h1 : isPre colonS (stripCR l) ∨ trimStr (stripCR l) = []
    · rw [if_pos h1, if_pos h1]
      exact ih N hnd2
    · rw [if_neg h1, if_neg h1]
      by_cases h2 : isPre dataPre (stripCR l) = true
      · have hnn : ¬ ¬ isPre dataPre (stripCR l) = true := by simpa using h2
        rw [if_neg hnn, if_neg hnn]
        by_cases h3 : trimStr ((stripCR l).drop 6) = doneTok
        · exfalso
          have hdone : lineDone l = true := by
            simp [lineDone, h2, lineData, jsonOf]
            exact h3
          have := hnd.1
          rw [hdone] at this
          exact Bool.noConfusion this
        · rw [if_neg h3, if_neg h3]
          match hd : lineDelta jp (trimStr ((stripCR l).drop 6)) with
          | some d =>
            show d ++ refConcat jp (M ++ N) = (d ++ refConcat jp M) ++ _
            rw [ih N hnd2, List.append_assoc]
          | none => exact ih N hnd2
      · have hpp : ¬ isPre dataPre (stripCR l) = true := by simpa using h2
        rw [if_pos hpp, if_pos hpp]
        exact ih N hnd2

theorem refConcat_done_cons (jp : Str → Option Json) {d : Str}
    (N : List Str) (h : lineDone d = true) : refConcat jp (d :: N) = [] := by
  have hdata : isPre dataPre (stripCR d) = true := lineData_of_lineDone h
  have hjs : trimStr ((stripCR d).drop 6) = doneTok := jsonOf_of_lineDone h
  simp only [refConcat]
  rw [if_neg (not_skip_of_data hdata), if_neg (by simpa using hdata),
    if_pos hjs]

theorem exists_first_done : ∀ {L : List Str}, noDone L = false →
    ∃ M₁ d M₂, L = M₁ ++ d :: M₂ ∧ noDone M₁ = true ∧ lineDone d = true := by
  intro L
  induction L with
  | nil => intro h; exact absurd h (by decide)
  | cons l ls ih =>
    intro h
    by_cases hl : lineDone l = true
    · exact ⟨[], l, ls, by simp, by decide, hl⟩
    · have hl' : lineDone l = false := by simpa using hl
      have hrec : noDone ls = false := by
        simp only [noDone, List.all_cons, hl', Bool.not_false,
          Bool.true_and] at h
        exact h
      obtain ⟨M₁, d, M₂, hsplit, hnd, hdone⟩ := ih hrec
      refine ⟨l :: M₁, d, M₂, by simp [hsplit], ?_, hdone⟩
      simp only [noDone, List.all_cons, hl', Bool.not_false, Bool.true_and]
      exact hnd

theorem lineData_false_of_not_done {l : Str} (h : lineData l = false) :
    lineDone l = false := by
  simp only [lineDone, h, Bool.false_and]

theorem all_nonData_ndad : ∀ {ls : List Str},
    ls.all (fun l => !lineData l) = true → noDataAfterDone ls = true := by
  intro ls
  induction ls with
  | nil => intro _; rfl
  | cons l ls ih =>
    intro h
    simp only [List.all_cons, Bool.and_eq_true] at h
    have hl : lineData l = false := by simpa using h.1
    simp only [noDataAfterDone]
    rw [if_neg (by simp [lineData_false_of_not_done hl])]
    exact ih h.2

theorem ndad_suffix : ∀ {A B : List Str},
    noDataAfterDone (A ++ B) = true → noDataAfterDone B = true := by
  intro A
  induction A with
  | nil => intro B h; exact h
  | cons a A ih =>
    intro B h
    simp only [List.cons_append, noDataAfterDone] at h
    by_cases ha : lineDone a = true
    · rw [if_pos ha] at h
      rw [List.append_eq, List.all_append, Bool.and_eq_true] at h
      exact all_nonData_ndad h.2
    · rw [if_neg ha] at h
      exact ih h

theorem ndad_first_done : ∀ {M₁ : List Str} {d : Str} {R : List Str},
    noDataAfterDone (M₁ ++ d :: R) = true → noDone M₁ = true →
    lineDone d = true → R.all (fun l => !lineData l) = true := by
  intro M₁
  induction M₁ with
  | nil =>
    intro d R h _ hd
    simp only [List.nil_append, noDataAfterDone] at h
    rw [if_pos hd] at h
    exact h
  | cons m M₁ ih =>
    intro d R h h1 hd
    simp only [noDone, List.all_cons, Bool.and_eq_true] at h1
    simp only [List.cons_append, noDataAfterDone] at h
    rw [if_neg (by simpa using h1.1)] at h
    exact ih h h1.2 hd

theorem completeLines_joinNl_gen {ls : List Str} (v : Str)
    (hls : ∀ l ∈ ls, '\n' ∉ l) :
    completeLines (joinNl ls v) = ls ++ completeLines v := by
  induction ls with
  | nil => simp [joinNl_nil]
  | cons l ls ih =>
    rw [joinNl_cons, completeLines_eq,
      breakNl_prepend (joinNl ls v) (hls l (by simp))]
    simp only [List.cons_append]
    rw [ih fun x hx => hls x (by simp [hx])]

/-! ## Read-loop lemmas -/

theorem streamLoop_nonData (jp : Str → Option Json) :
    ∀ (cs ls : List Str) (t acc : Str),
    (∀ l ∈ ls, '\n' ∉ l) → '\n' ∉ t →
    ls.all (fun l => !lineData l) = true →
    (completeLines (t ++ joinAll cs)).all (fun l => !lineData l) = true →
    streamLoop jp cs (joinNl ls t) acc = acc := by
  intro cs
  induction cs with
  | nil => intro ls t acc _ _ _ _; rfl
  | cons c cs ih =>
    intro ls t acc hls ht hall hfut
    obtain ⟨hsplit, hMfree, hufree⟩ := joinNl_split (t ++ c)
    have hbuf : joinNl ls t ++ c =
        joinNl (ls ++ completeLines (t ++ c)) (tailRest (t ++ c)) := by
      rw [joinNl_append, hsplit, joinNl_append_str]
    have e : t ++ joinAll (c :: cs) =
        joinNl (completeLines (t ++ c)) (tailRest (t ++ c) ++ joinAll cs) := by
      rw [← joinNl_append_str, hsplit]
      show t ++ (c ++ joinAll cs) = (t ++ c) ++ joinAll cs
      rw [List.append_assoc]
    rw [e, completeLines_joinNl_gen _ hMfree, List.all_append,
      Bool.and_eq_true] at hfut
    have hfree2 : ∀ l ∈ ls ++ completeLines (t ++ c), '\n' ∉ l := by
      intro x hx
      rcases List.mem_append.1 hx with hx | hx
      · exact hls x hx
      · exact hMfree x hx
    have hall2 : (ls ++ completeLines (t ++ c)).all
        (fun l => !lineData l) = true := by
      rw [List.all_append, Bool.and_eq_true]
      exact ⟨hall, hfut.1⟩
    simp only [streamLoop]
    rw [hbuf, processLines_eq_passL jp _ _ _ hfree2 hufree,
      pass_nonData jp _ _ _ hall2]
    have := ih [] (tailRest (t ++ c)) acc (by simp) hufree (by simp) hfut.2
    rw [joinNl_nil] at this
    exact this

theorem streamLoop_ref (jp : Str → Option Json) :
    ∀ (cs : List Str) (t acc : Str), '\n' ∉ t →
    allParse jp (completeLines (t ++ joinAll cs)) = true →
    noDataAfterDone (completeLines (t ++ joinAll cs)) = true →
    streamLoop jp cs t acc =
      acc ++ refConcat jp (completeLines (t ++ joinAll cs)) := by
  intro cs
  induction cs with
  | nil =>
    intro t acc ht _ _
    show acc = _
    rw [show t ++ joinAll [] = t by simp [joinAll],
      completeLines_eq, breakNl_of_no_nl ht]
    simp [refConcat]
  | cons c cs ih =>
    intro t acc ht hap hnd
    obtain ⟨hsplit, hMfree, hufree⟩ := joinNl_split (t ++ c)
    have e : t ++ joinAll (c :: cs) =
        joinNl (completeLines (t ++ c)) (tailRest (t ++ c) ++ joinAll cs) := by
      rw [← joinNl_append_str, hsplit]
      show t ++ (c ++ joinAll cs) = (t ++ c) ++ joinAll cs
      rw [List.append_assoc]
    have eL : completeLines (t ++ joinAll (c :: cs)) =
        completeLines (t ++ c) ++
        completeLines (tailRest (t ++ c) ++ joinAll cs) := by
      rw [e, completeLines_joinNl_gen _ hMfree]
    rw [eL] at hap hnd ⊢
    have hap2 : allParse jp (completeLines (t ++ c)) = true ∧
        allParse jp (completeLines (tailRest (t ++ c) ++ joinAll cs)) =
          true := by
      simp only [allParse, List.all_append, Bool.and_eq_true] at hap
      exact hap
    have hpass : processLines jp (t ++ c) acc =
        passL jp (completeLines (t ++ c)) (tailRest (t ++ c)) acc := by
      conv_lhs => rw [← hsplit]
      exact processLines_eq_passL jp _ _ _ hMfree hufree
    simp only [streamLoop]
    by_cases hnoDone : noDone (completeLines (t ++ c)) = true
    · rw [hpass, pass_noDone jp _ _ _ hap2.1 hnoDone]
      show streamLoop jp cs (tailRest (t ++ c))
        (acc ++ refConcat jp (completeLines (t ++ c))) = _
      rw [ih (tailRest (t ++ c))
        (acc ++ refConcat jp (completeLines (t ++ c))) hufree hap2.2
        (ndad_suffix hnd)]
      rw [refConcat_append jp _ _ hnoDone, List.append_assoc]
    · obtain ⟨M₁, d, M₂, hM, hndM₁, hdone⟩ :=
        exists_first_done (by simpa using hnoDone)
      have hapM₁ : allParse jp M₁ = true := by
        have := hap2.1
        rw [hM] at this
        simp only [allParse, List.all_append, Bool.and_eq_true] at this
        exact this.1
      have hpass2 : passL jp (completeLines (t ++ c)) (tailRest (t ++ c))
          acc = (joinNl M₂ (tailRest (t ++ c)), acc ++ refConcat jp M₁) := by
        rw [hM]
        exact pass_done jp M₁ d M₂ _ _ hapM₁ hndM₁ hdone
      have hrest : (M₂ ++
          completeLines (tailRest (t ++ c) ++ joinAll cs)).all
          (fun l => !lineData l) = true := by
        have hnd' := hnd
        rw [hM, List.append_assoc, List.cons_append] at hnd'
        exact ndad_first_done hnd' hndM₁ hdone
      rw [List.all_append, Bool.and_eq_true] at hrest
      have hM₂free : ∀ l ∈ M₂, '\n' ∉ l := by
        intro x hx
        apply hMfree
        rw [hM]
        simp [hx]
      rw [hpass, hpass2]
      show streamLoop jp cs (joinNl M₂ (tailRest (t ++ c)))
        (acc ++ refConcat jp M₁) = _
      rw [streamLoop_nonData jp cs M₂ (tailRest (t ++ c)) _ hM₂free hufree
        hrest.1 hrest.2]
      rw [hM, List.append_assoc, List.cons_append,
        refConcat_append jp _ _ hndM₁, refConcat_done_cons jp _ hdone]
      simp

/-! ## JS truthiness -/

/-- Is a JSON number lexeme a zero (the only falsy numeric value)? -/
def numIsZero (raw : Str) : Bool :=
  (raw.takeWhile (fun c => !(c = 'e' || c = 'E'))).all
    (fun c => !c.isDigit || c = '0')

/-- JS truthiness of a parsed JSON value (`NaN` cannot arise from a
JSON lexeme). -/
def jsTruthy : Json → Bool
  | .null => false
  | .bool b => b
  | .str s => decide (s ≠ [])
  | .num r => !numIsZero r
  | .arr _ => true
  | .obj _ => true

/-! ## Relay request handler (supabase/functions/ask-ai/index.ts)

The handler is modelled as a pure function of: the request method; the
outcome of `await req.json()` (`.error m` models a thrown parse error
whose message is `m`); the `LOVABLE_API_KEY` environment variable; and
the upstream `fetch` outcome (modelled as always resolving, with a
status and a body).  The construction of the system prompt — the
context strings fetched from the `syllabus` and `past_papers` tables —
is not modelled: no claim observes the upstream request payload, only
whether the upstream call is made and how its response is mapped. -/

structure UpResp where
  upStatus : Nat
  upBody : Str

structure HResp where
  status : Nat
  headers : List (Str × Str)
  body : Option Str

structure AskOut where
  resp : HResp
  upstreamCalled : Bool
  logged : List (Nat × Str)

/-- The `corsHeaders` constant of the handler. -/
def corsHeaders : List (Str × Str) :=
  [(str ("Access-Control-Allow-Origin"), str ("*")),
   (str ("Access-Control-Allow-Headers"),
    str ("authorization, x-client-info, apikey, content-type"))]

def ctJson : Str × Str := (str ("Content-Type"), str ("application/json"))

def ctStream : Str × Str :=
  (str ("Content-Type"), str ("text/event-stream"))

/-- `JSON.stringify(\x7berror: m\x7d)`; every message produced by the
handler is free of characters that stringification would escape. -/
def errBody (m : Str) : Str :=
  str ("\x7b\"error\":\"") ++ m ++ str ("\"\x7d")

/-- Approximates the engine's `TypeError` message for destructuring a
`null` request body; no claim observes its text, only the resulting
status and headers. -/
def nullDestructure : Str := str ("Cannot destructure property")

/-- Is the parsed request body JSON `null`?  Destructuring `null`
throws a `TypeError`, caught by the handler's top-level `catch`. -/
def isNullJ : Json → Bool
  | .null => true
  | _ => false

/-- JS falsiness of the destructured `question` field (`none` models
`undefined`). -/
def qFalsy : Option Json → Bool
  | none => true
  | some v => !jsTruthy v

/-- The `serve` handler of ask-ai/index.ts. -/
def askAi (method : Str) (reqBody : Except Str Json) (apiKey : Option Str)
    (up : UpResp) : AskOut :=
  if method = str ("OPTIONS") then
    ⟨⟨200, corsHeaders, none⟩, false, []⟩
  else
    match reqBody with
    | .error m =>
      ⟨⟨500, corsHeaders ++ [ctJson], some (errBody m)⟩, false, []⟩
    | .ok j =>
      if isNullJ j then
        ⟨⟨500, corsHeaders ++ [ctJson], some (errBody nullDestructure)⟩,
          false, []⟩
      else
        if qFalsy (objGet j (str ("question"))) then
          ⟨⟨400, corsHeaders ++ [ctJson],
            some (errBody (str ("Question is required")))⟩, false, []⟩
        else
          match apiKey with
          | none =>
            ⟨⟨500, corsHeaders ++ [ctJson],
              some (errBody (str ("LOVABLE_API_KEY is not configured")))⟩,
              false, []⟩
          | some _ =>
            if ¬ (200 ≤ up.upStatus ∧ up.upStatus ≤ 299) then
              if up.upStatus = 429 then
                ⟨⟨429, corsHeaders ++ [ctJson],
                  some (errBody
                    (str ("Rate limit exceeded. Please try again later.")))⟩,
                  true, []⟩
              else if up.upStatus = 402 then
                ⟨⟨402, corsHeaders ++ [ctJson],
                  some (errBody
                    (str ("Payment required. Please add credits to continue.")))⟩,
                  true, []⟩
              else
                ⟨⟨500, corsHeaders ++ [ctJson],
                  some (errBody (str ("AI service error")))⟩, true,
                  [(up.upStatus, up.upBody)]⟩
            else
              ⟨⟨200, corsHeaders ++ [ctStream], some up.upBody⟩, true, []⟩

/-! ## Trailing-structure extractor (`handleSend`, part_001 lines 130-200) -/

structure TopicRow where
  userId : Str
  subject : Str
  topic : Json
  probability : Nat

structure AnswerRow where
  userId : Str
  question : Str
  answer : Str
  summary : Json
  subject : Str

inductive DbRow where
  | topicRow (t : TopicRow)
  | answerRow (a : AnswerRow)

/-- Observable outcome of one `handleSend` invocation: whether the user
message was appended to the transcript, whether `streamChat` was
invoked, whether `setIsLoading(true)` ran, the database inserts issued
(in order), and whether the error toast/apology path ran. -/
structure SendOut where
  appendedUser : Bool
  requestSent : Bool
  loadingSet : Bool
  rows : List DbRow
  errorShown : Bool

def sendNoop : SendOut := ⟨false, false, false, [], false⟩

/-- Split `s` around the first occurrence of the substring `pat`:
returns the text before it and the text after it. -/
def breakSub (pat : Str) : Str → Option (Str × Str)
  | [] => none
  | c :: r =>
    if isPre pat (c :: r) then some ([], (c :: r).drop pat.length)
    else
      match breakSub pat r with
      | some (a, b) => some (c :: a, b)
      | none => none

/-- Model of `response.match(/```json\s*([\s\S]*?)\s*```/)`, returning
the captured group: the text between the first occurrence of
"```json" and the first "```" that follows it, with surrounding
whitespace trimmed (the leading greedy `\s*` and the lazy group give
exactly this; if no closing fence follows the first opener, nothing in
the text can match, since any later opener itself contains a closing
fence).  JS `\s` is modelled by its ASCII subset, as in `trimStr`. -/
def extractBlock (s : Str) : Option Str :=
  match breakSub (str ("```json")) s with
  | none => none
  | some (_, t) =>
    match breakSub (str ("```")) t with
    | none => none
    | some (u, _) => some (trimStr u)

/-- The per-topic insert loop: the `k`-th topic's probability is
`Math.floor(Math.random() * 30) + 70`, with `rnd k` the `k`-th value of
`Math.floor(Math.random() * 30)` (always in `[0, 30)`). -/
def topicRows (u : Str) (rnd : Nat → Fin 30) : Nat → List Json → List DbRow
  | _, [] => []
  | k, tp :: tps =>
    .topicRow ⟨u, str ("General"), tp, (rnd k).val + 70⟩ ::
      topicRows u rnd (k + 1) tps

/-- `handleSend` as a pure function of: the optional `text` argument,
the input-box content, the signed-in user (id), the outcome of
`streamChat` (`.error` models a thrown/rejected call), and the
pseudo-random sequence `rnd`.  Database inserts are modelled as always
resolving (their failure path changes no claim). -/
def handleSend (textArg : Option Str) (input : Str) (user : Option Str)
    (streamResult : Except Str Str) (rnd : Nat → Fin 30) : SendOut :=
  let messageText :=
    match textArg with
    | some t => if t = [] then trimStr input else t
    | none => trimStr input
  if messageText = [] then sendNoop
  else
    match streamResult with
    | .error _ => ⟨true, true, true, [], true⟩
    | .ok response =>
      match user with
      | none => ⟨true, true, true, [], false⟩
      | some u =>
        if response = [] then ⟨true, true, true, [], false⟩
        else
          match extractBlock response with
          | none =>
            ⟨true, true, true,
              [.answerRow ⟨u, messageText, response, .str [],
                str ("General")⟩], false⟩
          | some blk =>
            match jsParse blk with
            | none =>
              ⟨true, true, true,
                [.answerRow ⟨u, messageText, response, .str [],
                  str ("General")⟩], false⟩
            | some parsed =>
              ⟨true, true, true,
                (topicRows u rnd 0
                  (match objGet parsed (str ("important_topics")) with
                   | some (.arr xs) => xs
                   | _ => [])) ++
                [.answerRow ⟨u, messageText, response,
                  (match objGet parsed (str ("summary")) with
                   | some v => if jsTruthy v then v else .str []
                   | none => .str []),
                  str ("General")⟩], false⟩

/-- One inner-loop step on a buffer whose first complete line is the
terminator: the pass stops, leaving the rest of the buffer unconsumed
and the accumulator unchanged. -/
theorem processLines_done_front (jp : Str → Option Json) (L R acc : Str)
    (hnl : '\n' ∉ L) (hdata : isPre dataPre (stripCR L) = true)
    (hdone : trimStr ((stripCR L).drop 6) = doneTok) :
    processLines jp (L ++ '\n' :: R) acc = (R, acc) := by
  rw [processLines_recur, breakNl_prepend R hnl]
  show (if isPre colonS (stripCR L) = true ∨ trimStr (stripCR L) = [] then
      processLines jp R acc
    else if ¬ isPre dataPre (stripCR L) = true then processLines jp R acc
    else if trimStr (List.drop 6 (stripCR L)) = doneTok then (R, acc)
    else
      match lineDelta jp (trimStr (List.drop 6 (stripCR L))) with
      | some d => processLines jp R (acc ++ d)
      | none => (stripCR L ++ '\n' :: R, acc)) = (R, acc)
  rw [if_neg (not_skip_of_data hdata), if_neg (by simpa using hdata),
    if_pos hdone]

/-- One inner-loop step on a buffer whose first complete line is a data
line that fails to parse: the `catch` pushes the stripped line back in
front of the rest, the accumulator unchanged. -/
theorem processLines_fail_front (jp : Str → Option Json) (L R acc : Str)
    (hnl : '\n' ∉ L) (hdata : isPre dataPre (stripCR L) = true)
    (hnd : ¬ trimStr ((stripCR L).drop 6) = doneTok)
    (hfail : lineDelta jp (trimStr ((stripCR L).drop 6)) = none) :
    processLines jp (L ++ '\n' :: R) acc =
      (stripCR L ++ '\n' :: R, acc) := by
  rw [processLines_recur, breakNl_prepend R hnl]
  show (if isPre colonS (stripCR L) = true ∨ trimStr (stripCR L) = [] then
      processLines jp R acc
    else if ¬ isPre dataPre (stripCR L) = true then processLines jp R acc
    else if trimStr (List.drop 6 (stripCR L)) = doneTok then (R, acc)
    else
      match lineDelta jp (trimStr (List.drop 6 (stripCR L))) with
      | some d => processLines jp R (acc ++ d)
      | none => (stripCR L ++ '\n' :: R, acc)) =
    (stripCR L ++ '\n' :: R, acc)
  rw [if_neg (not_skip_of_data hdata), if_neg (by simpa using hdata),
    if_neg hnd, hfail]

/-! ## Claims -/

/-- C1 (counterexample): the concatenation invariant fails as stated.
One chunk carries a malformed data line followed by a well-formed one
whose delta is "X"; the decoder pushes the malformed line back, stalls,
and returns "" at end of stream, while the specified assembly of the
well-formed lines is "X" — the delta is dropped. -/
theorem C1_counterexample :
    streamChat
      [str ("data: \x7dbad\ndata: \x7b\"choices\":[\x7b\"delta\":\x7b\"content\":\"X\"\x7d\x7d]\x7d\n")]
      = [] ∧
    refConcat jsParse (completeLines (joinAll
      [str ("data: \x7dbad\ndata: \x7b\"choices\":[\x7b\"delta\":\x7b\"content\":\"X\"\x7d\x7d]\x7d\n")]))
      = str ("X") :=
  ⟨rfl, rfl⟩

/-- C1 (amended): for every sequence of chunks in which every complete
data line (other than the terminator) parses and extracts successfully,
and no data line follows the first `[DONE]` line, the assembled answer
equals the concatenation, in arrival order, of the deltas of the data
lines before the terminator (or end of stream), regardless of how
chunk boundaries align with lines. -/
theorem C1_amended (cs : List Str)
    (h1 : allParse jsParse (completeLines (joinAll cs)) = true)
    (h2 : noDataAfterDone (completeLines (joinAll cs)) = true) :
    streamChat cs = refConcat jsParse (completeLines (joinAll cs)) := by
  have h := streamLoop_ref jsParse cs [] [] (by simp) h1 h2
  simpa using h

/-- C1 (witness): a two-delta stream split mid-line across chunks, with
terminator, satisfies the hypotheses, and the theorem applies. -/
theorem C1_witness :
    allParse jsParse (completeLines (joinAll
      [str ("data: \x7b\"choices\":[\x7b\"delta\":\x7b\"cont"),
       str ("ent\":\"Hel\"\x7d\x7d]\x7d\ndata: \x7b\"choices\":[\x7b\"delta\":\x7b\"content\":\"lo\"\x7d\x7d]\x7d\ndata: [DONE]\n")]))
      = true ∧
    noDataAfterDone (completeLines (joinAll
      [str ("data: \x7b\"choices\":[\x7b\"delta\":\x7b\"cont"),
       str ("ent\":\"Hel\"\x7d\x7d]\x7d\ndata: \x7b\"choices\":[\x7b\"delta\":\x7b\"content\":\"lo\"\x7d\x7d]\x7d\ndata: [DONE]\n")]))
      = true ∧
    streamChat
      [str ("data: \x7b\"choices\":[\x7b\"delta\":\x7b\"cont"),
       str ("ent\":\"Hel\"\x7d\x7d]\x7d\ndata: \x7b\"choices\":[\x7b\"delta\":\x7b\"content\":\"lo\"\x7d\x7d]\x7d\ndata: [DONE]\n")]
      = refConcat jsParse (completeLines (joinAll
      [str ("data: \x7b\"choices\":[\x7b\"delta\":\x7b\"cont"),
       str ("ent\":\"Hel\"\x7d\x7d]\x7d\ndata: \x7b\"choices\":[\x7b\"delta\":\x7b\"content\":\"lo\"\x7d\x7d]\x7d\ndata: [DONE]\n")])) :=
  ⟨by decide, by decide,
    C1_amended
      [str ("data: \x7b\"choices\":[\x7b\"delta\":\x7b\"cont"),
       str ("ent\":\"Hel\"\x7d\x7d]\x7d\ndata: \x7b\"choices\":[\x7b\"delta\":\x7b\"content\":\"lo\"\x7d\x7d]\x7d\ndata: [DONE]\n")]
      (by decide) (by decide)⟩

/-- C3 (counterexample): a data line delivered in a chunk after the
`data: [DONE]` terminator IS processed: `break` only leaves the inner
line loop, and the next read resumes it, so the post-terminator delta
"X" ends up in the assembled answer (the claim requires ""). -/
theorem C3_counterexample :
    streamChat [str ("data: [DONE]\n"),
      str ("data: \x7b\"choices\":[\x7b\"delta\":\x7b\"content\":\"X\"\x7d\x7d]\x7d\n")]
      = str ("X") :=
  rfl

/-- C3 (amended): seeing `[DONE]` stops the current pass: whatever
bytes follow the terminator line, if no later read delivers data (here,
the terminator arrives in the final chunk), they are never processed
and the answer assembled so far is returned. -/
theorem C3_amended (extra : Str) :
    streamChat [str ("data: [DONE]\n") ++ extra] = [] := by
  show streamLoop jsParse [str ("data: [DONE]\n") ++ extra] [] [] = []
  simp only [streamLoop]
  have hp : processLines jsParse ([] ++ (str ("data: [DONE]\n") ++ extra))
      [] = (extra, []) := by
    show processLines jsParse (str ("data: [DONE]") ++ '\n' :: extra) [] =
      (extra, [])
    exact processLines_done_front jsParse (str ("data: [DONE]")) extra []
      (by decide) (by decide) (by decide)
  rw [hp]

/-- C4: on a data line whose trimmed remainder fails to parse (or whose
parsed payload is `null`, making extraction throw), the inner pass
raises nothing, drops nothing from the accumulated answer, and returns
with the failed (CR-stripped) line pushed back onto the front of the
buffer re-joined with a newline; after any next read appends more
bytes, the first line split off the buffer is that same line again. -/
theorem C4_malformed_pushback (L R acc : Str) (hnl : '\n' ∉ L)
    (hdata : isPre dataPre (stripCR L) = true)
    (hnd : ¬ trimStr ((stripCR L).drop 6) = doneTok)
    (hfail : lineDelta jsParse (trimStr ((stripCR L).drop 6)) = none) :
    processLines jsParse (L ++ '\n' :: R) acc =
      (stripCR L ++ '\n' :: R, acc) ∧
    ∀ c : Str, breakNl ((stripCR L ++ '\n' :: R) ++ c) =
      some (stripCR L, R ++ c) := by
  have hcr : '\n' ∉ stripCR L := by
    intro hmem
    apply hnl
    unfold stripCR at hmem
    by_cases hl : L.getLast? = some '\r'
    · rw [if_pos hl] at hmem
      exact (List.dropLast_sublist L).subset hmem
    · rw [if_neg hl] at hmem
      exact hmem
  constructor
  · exact processLines_fail_front jsParse L R acc hnl hdata hnd hfail
  · intro c
    have e : (stripCR L ++ '\n' :: R) ++ c = stripCR L ++ '\n' :: (R ++ c) := by
      rw [List.append_assoc, List.cons_append]
    rw [e, breakNl_prepend (R ++ c) hcr]

/-- C4 (witness): a JSON object truncated mid-chunk is pushed back and
re-examined first on the next pass. -/
theorem C4_witness :
    processLines jsParse (str ("data: \x7b\"choices\":[\x7b\"de") ++
      '\n' :: str ("more")) [] =
      (stripCR (str ("data: \x7b\"choices\":[\x7b\"de")) ++
        '\n' :: str ("more"), []) ∧
    breakNl ((stripCR (str ("data: \x7b\"choices\":[\x7b\"de")) ++
      '\n' :: str ("more")) ++ str ("extra")) =
      some (stripCR (str ("data: \x7b\"choices\":[\x7b\"de")),
        str ("more") ++ str ("extra")) := by
  have h := C4_malformed_pushback (str ("data: \x7b\"choices\":[\x7b\"de"))
    (str ("more")) [] (by decide) (by decide) (by decide) rfl
  exact ⟨h.1, h.2 (str ("extra"))⟩

/-- C2 (counterexample): a whitespace-only question is NOT rejected:
`if (!question)` tests JS falsiness only, and " " is truthy, so the
relay contacts the upstream provider and (here, upstream success)
returns 200, not 400. -/
theorem C2_counterexample :
    (askAi (str ("POST"))
        (.ok (Json.obj [(str ("question"), Json.str (str (" ")))]))
        (some (str ("key"))) ⟨200, str ("ok")⟩).upstreamCalled = true ∧
    (askAi (str ("POST"))
        (.ok (Json.obj [(str ("question"), Json.str (str (" ")))]))
        (some (str ("key"))) ⟨200, str ("ok")⟩).resp.status = 200 :=
  ⟨rfl, rfl⟩

/-- C2 (amended): for every POST request whose `question` field is
missing, empty, or otherwise JS-falsy, the relay responds 400 with body
`\x7b"error":"Question is required"\x7d` and makes no upstream call; a
whitespace-only question is not rejected (see the counterexample). -/
theorem C2_amended (j : Json) (apiKey : Option Str) (up : UpResp)
    (hj : isNullJ j = false)
    (hq : qFalsy (objGet j (str ("question"))) = true) :
    askAi (str ("POST")) (.ok j) apiKey up =
      ⟨⟨400, corsHeaders ++ [ctJson],
        some (errBody (str ("Question is required")))⟩, false, []⟩ := by
  simp only [askAi]
  rw [if_neg (by decide : ¬ str ("POST") = str ("OPTIONS")),
    if_neg (by simp [hj]), if_pos hq]

/-- C2 (witness): a request body with no `question` key. -/
theorem C2_witness :
    isNullJ (Json.obj []) = false ∧
    qFalsy (objGet (Json.obj []) (str ("question"))) = true ∧
    askAi (str ("POST")) (.ok (Json.obj [])) (some (str ("key")))
        ⟨200, str ("ok")⟩ =
      ⟨⟨400, corsHeaders ++ [ctJson],
        some (errBody (str ("Question is required")))⟩, false, []⟩ :=
  ⟨rfl, rfl,
    C2_amended (Json.obj []) (some (str ("key"))) ⟨200, str ("ok")⟩ rfl rfl⟩

/-- C5: with a truthy question and a configured key, the relay maps the
upstream status exactly: 429 to 429 with the rate-limit message, 402 to
402 with the payment message, any other non-success to 500 with
`\x7b"error":"AI service error"\x7d` after logging the upstream status
and body, and success to 200 with the upstream body passed through
under Content-Type text/event-stream. -/
theorem C5_upstream_mapping (j : Json) (k : Str) (up : UpResp)
    (hj : isNullJ j = false)
    (hq : qFalsy (objGet j (str ("question"))) = false) :
    (up.upStatus = 429 →
      askAi (str ("POST")) (.ok j) (some k) up =
        ⟨⟨429, corsHeaders ++ [ctJson],
          some (errBody
            (str ("Rate limit exceeded. Please try again later.")))⟩,
          true, []⟩) ∧
    (up.upStatus = 402 →
      askAi (str ("POST")) (.ok j) (some k) up =
        ⟨⟨402, corsHeaders ++ [ctJson],
          some (errBody
            (str ("Payment required. Please add credits to continue.")))⟩,
          true, []⟩) ∧
    (¬ (200 ≤ up.upStatus ∧ up.upStatus ≤ 299) → ¬ up.upStatus = 429 →
      ¬ up.upStatus = 402 →
      askAi (str ("POST")) (.ok j) (some k) up =
        ⟨⟨500, corsHeaders ++ [ctJson],
          some (errBody (str ("AI service error")))⟩, true,
          [(up.upStatus, up.upBody)]⟩) ∧
    ((200 ≤ up.upStatus ∧ up.upStatus ≤ 299) →
      askAi (str ("POST")) (.ok j) (some k) up =
        ⟨⟨200, corsHeaders ++ [ctStream], some up.upBody⟩, true, []⟩) := by
  have base : askAi (str ("POST")) (.ok j) (some k) up =
      (if ¬ (200 ≤ up.upStatus ∧ up.upStatus ≤ 299) then
        if up.upStatus = 429 then
          ⟨⟨429, corsHeaders ++ [ctJson],
            some (errBody
              (str ("Rate limit exceeded. Please try again later.")))⟩,
            true, []⟩
        else if up.upStatus = 402 then
          ⟨⟨402, corsHeaders ++ [ctJson],
            some (errBody
              (str ("Payment required. Please add credits to continue.")))⟩,
            true, []⟩
        else
          ⟨⟨500, corsHeaders ++ [ctJson],
            some (errBody (str ("AI service error")))⟩, true,
            [(up.upStatus, up.upBody)]⟩
      else ⟨⟨200, corsHeaders ++ [ctStream], some up.upBody⟩, true, []⟩) := by
    simp only [askAi]
    rw [if_neg (by decide : ¬ str ("POST") = str ("OPTIONS")),
      if_neg (by simp [hj]), if_neg (by simp [hq])]
  refine ⟨?_, ?_, ?_, ?_⟩
  · intro h429
    rw [base, if_pos (by omega), if_pos h429]
  · intro h402
    rw [base, if_pos (by omega), if_neg (by omega), if_pos h402]
  · intro hok h429 h402
    rw [base, if_pos hok, if_neg h429, if_neg h402]
  · intro hok
    rw [base, if_neg (by simpa using hok)]

/-- C5 (witness): a truthy question against an upstream 503 takes the
generic-error branch. -/
theorem C5_witness :
    isNullJ (Json.obj [(str ("question"), Json.str (str ("q")))]) = false ∧
    qFalsy (objGet (Json.obj [(str ("question"), Json.str (str ("q")))])
      (str ("question"))) = false ∧
    (¬ ((200:Nat) ≤ 503 ∧ (503:Nat) ≤ 299) → ¬ (503:Nat) = 429 →
      ¬ (503:Nat) = 402 →
      askAi (str ("POST"))
        (.ok (Json.obj [(str ("question"), Json.str (str ("q")))]))
        (some (str ("key"))) ⟨503, str ("oops")⟩ =
        ⟨⟨500, corsHeaders ++ [ctJson],
          some (errBody (str ("AI service error")))⟩, true,
          [(503, str ("oops"))]⟩) :=
  ⟨rfl, rfl,
    (C5_upstream_mapping
      (Json.obj [(str ("question"), Json.str (str ("q")))])
      (str ("key")) ⟨503, str ("oops")⟩ rfl rfl).2.2.1⟩

/-- Every branch of the handler attaches the CORS headers first. -/
theorem askAi_headers_shape (method : Str) (reqBody : Except Str Json)
    (apiKey : Option Str) (up : UpResp) :
    ∃ extra, (askAi method reqBody apiKey up).resp.headers =
      corsHeaders ++ extra := by
  by_cases hm : method = str ("OPTIONS")
  · exact ⟨[], by simp [askAi, hm]⟩
  · match reqBody with
    | .error m => exact ⟨[ctJson], by simp [askAi, hm]⟩
    | .ok j =>
      by_cases hn : isNullJ j = true
      · exact ⟨[ctJson], by simp [askAi, hm, hn]⟩
      · by_cases hq : qFalsy (objGet j (str ("question"))) = true
        · exact ⟨[ctJson], by simp [askAi, hm, hn, hq]⟩
        · match apiKey with
          | none => exact ⟨[ctJson], by simp [askAi, hm, hn, hq]⟩
          | some k =>
            by_cases hok : 200 ≤ up.upStatus ∧ up.upStatus ≤ 299
            · exact ⟨[ctStream], by simp [askAi, hm, hn, hq, hok.1, hok.2]⟩
            · by_cases h429 : up.upStatus = 429
              · exact ⟨[ctJson], by simp [askAi, hm, hn, hq, hok, h429]⟩
              · by_cases h402 : up.upStatus = 402
                · exact ⟨[ctJson],
                    by simp [askAi, hm, hn, hq, hok, h429, h402]⟩
                · exact ⟨[ctJson],
                    by simp [askAi, hm, hn, hq, hok, h429, h402]⟩

/-- C10: every response the relay returns — preflight, body-parse
failure, null-body failure, validation error, missing-key failure,
upstream-error translation, and streaming success — carries both
permissive cross-origin headers. -/
theorem C10_cors_always (method : Str) (reqBody : Except Str Json)
    (apiKey : Option Str) (up : UpResp) :
    (str ("Access-Control-Allow-Origin"), str ("*")) ∈
      (askAi method reqBody apiKey up).resp.headers ∧
    (str ("Access-Control-Allow-Headers"),
      str ("authorization, x-client-info, apikey, content-type")) ∈
      (askAi method reqBody apiKey up).resp.headers := by
  obtain ⟨extra, he⟩ := askAi_headers_shape method reqBody apiKey up
  rw [he]
  constructor <;> simp [corsHeaders]

/-- C6: when the answer's first fenced json block parses to
`important_topics` `["A","B"]` and `summary` `"S"`, and a user is
signed in, `handleSend` inserts exactly two topic records (in topic
order, each with probability `Math.floor(Math.random()*30) + 70`, a
value in `[70, 99]`) followed by exactly one answer record whose
summary is `"S"`; `extractBlock` uses the first fenced block by
construction. -/
theorem C6_extract_insert (q input u resp : Str) (rnd : Nat → Fin 30)
    (A B S : Str) (blk : Str) (P : Json)
    (hq : ¬ q = [])
    (hx : extractBlock resp = some blk)
    (hp : jsParse blk = some P)
    (ht : objGet P (str ("important_topics")) =
      some (Json.arr [Json.str A, Json.str B]))
    (hs : objGet P (str ("summary")) = some (Json.str S)) :
    (handleSend (some q) input (some u) (.ok resp) rnd).rows =
      [.topicRow ⟨u, str ("General"), Json.str A, (rnd 0).val + 70⟩,
       .topicRow ⟨u, str ("General"), Json.str B, (rnd 1).val + 70⟩,
       .answerRow ⟨u, q, resp, Json.str S, str ("General")⟩] ∧
    70 ≤ (rnd 0).val + 70 ∧ (rnd 0).val + 70 ≤ 99 ∧
    70 ≤ (rnd 1).val + 70 ∧ (rnd 1).val + 70 ≤ 99 := by
  have hrne : ¬ resp = [] := by
    intro he
    rw [he] at hx
    exact Option.noConfusion hx
  have h0 := (rnd 0).isLt
  have h1 := (rnd 1).isLt
  refine ⟨?_, by omega, by omega, by omega, by omega⟩
  by_cases hS : S = []
  · subst hS
    simp [handleSend, hq, hrne, hx, hp, ht, hs, topicRows, jsTruthy]
  · simp [handleSend, hq, hrne, hx, hp, ht, hs, topicRows, jsTruthy, hS]

/-- C6 (witness): a concrete answer ending in a fenced block with
topics "A","B" and summary "S". -/
theorem C6_witness :
    (handleSend (some (str ("q"))) [] (some (str ("u1")))
      (.ok (str ("Answer.\n```json\n\x7b\"important_topics\":[\"A\",\"B\"],\"summary\":\"S\"\x7d\n```\n")))
      (fun _ => ⟨5, by omega⟩)).rows =
      [.topicRow ⟨str ("u1"), str ("General"), Json.str (str ("A")), 75⟩,
       .topicRow ⟨str ("u1"), str ("General"), Json.str (str ("B")), 75⟩,
       .answerRow ⟨str ("u1"), str ("q"),
         str ("Answer.\n```json\n\x7b\"important_topics\":[\"A\",\"B\"],\"summary\":\"S\"\x7d\n```\n"),
         Json.str (str ("S")), str ("General")⟩] :=
  (C6_extract_insert (str ("q")) [] (str ("u1"))
    (str ("Answer.\n```json\n\x7b\"important_topics\":[\"A\",\"B\"],\"summary\":\"S\"\x7d\n```\n"))
    (fun _ => ⟨5, by omega⟩) (str ("A")) (str ("B")) (str ("S"))
    (str ("\x7b\"important_topics\":[\"A\",\"B\"],\"summary\":\"S\"\x7d"))
    (Json.obj [(str ("important_topics"),
        Json.arr [Json.str (str ("A")), Json.str (str ("B"))]),
      (str ("summary"), Json.str (str ("S")))])
    (by decide) rfl rfl rfl rfl).1

/-- C7: when the completed (non-empty) answer contains no fenced json
block, or its block fails to parse, extraction is a non-fatal no-op:
zero topic records are inserted and the raw answer is still persisted
as one answer record with an empty summary. -/
theorem C7_no_block (q input u resp : Str) (rnd : Nat → Fin 30)
    (hq : ¬ q = []) (hrne : ¬ resp = [])
    (hx : extractBlock resp = none ∨
      ∃ blk, extractBlock resp = some blk ∧ jsParse blk = none) :
    (handleSend (some q) input (some u) (.ok resp) rnd).rows =
      [.answerRow ⟨u, q, resp, Json.str [], str ("General")⟩] := by
  rcases hx with hx | ⟨blk, hx, hp⟩
  · simp [handleSend, hq, hrne, hx]
  · simp [handleSend, hq, hrne, hx, hp]

/-- C7 (witness): an answer with no fenced block. -/
theorem C7_witness :
    (handleSend (some (str ("q"))) [] (some (str ("u1")))
      (.ok (str ("Hello."))) (fun _ => ⟨5, by omega⟩)).rows =
      [.answerRow ⟨str ("u1"), str ("q"), str ("Hello."), Json.str [],
        str ("General")⟩] :=
  C7_no_block (str ("q")) [] (str ("u1")) (str ("Hello."))
    (fun _ => ⟨5, by omega⟩) (by decide) (by decide) (Or.inl rfl)

/-- C8: persistence happens only for a signed-in user and a non-empty
assembled answer: an anonymous session, or an empty full response,
yields no database insert at all. -/
theorem C8_persist_gating (textArg : Option Str) (input : Str)
    (user : Option Str) (sr : Except Str Str) (rnd : Nat → Fin 30)
    (h : user = none ∨ sr = .ok []) :
    (handleSend textArg input user sr rnd).rows = [] := by
  rcases h with h | h
  · subst h
    cases sr with
    | error e =>
      simp only [handleSend]
      split <;> rfl
    | ok resp =>
      simp only [handleSend]
      split <;> rfl
  · subst h
    cases user with
    | none =>
      simp only [handleSend]
      split <;> rfl
    | some u =>
      simp only [handleSend]
      split <;> rfl

/-- C8 (witness): an anonymous session inserts nothing. -/
theorem C8_witness :
    (handleSend (some (str ("q"))) [] none (.ok (str ("hi")))
      (fun _ => ⟨5, by omega⟩)).rows = [] :=
  C8_persist_gating (some (str ("q"))) [] none (.ok (str ("hi")))
    (fun _ => ⟨5, by omega⟩) (Or.inl rfl)

/-- C9: calling `handleSend` with no explicit text argument while the
input box holds only whitespace (or nothing) is a no-op: no user
message is appended, no request is sent, the loading flag is not set,
and nothing is inserted. -/
theorem C9_blank_noop (input : Str) (user : Option Str)
    (sr : Except Str Str) (rnd : Nat → Fin 30)
    (h : trimStr input = []) :
    handleSend none input user sr rnd = sendNoop := by
  simp [handleSend, h]

/-- C9 (witness): a whitespace-only input box. -/
theorem C9_witness :
    handleSend none (str ("   ")) (some (str ("u1")))
      (.ok (str ("hi"))) (fun _ => ⟨5, by omega⟩) = sendNoop :=
  C9_blank_noop (str ("   ")) (some (str ("u1"))) (.ok (str ("hi")))
    (fun _ => ⟨5, by omega⟩) (by decide)
